import Mathlib

/-!
Verification of `tools/dumpformatoptions.py` (clang-format documentation
generator) against its natural-language specification.

The script is embedded shallowly: text is `List Char`, each Python helper
becomes a Lean function, and the line-driven parser becomes an explicit
state machine (`FmtState`, `step`, `runLines`, `read_options`).  Fallible
code is modelled with `Except (List Char)` carrying the exception message.

Regular-expression notes (the source uses `re`): every pattern appearing in
the script is specialised to a concrete scanning function that reproduces
the leftmost, non-overlapping `re.sub` semantics of that particular pattern,
including greedy or lazy quantifier behaviour where it is observable.
Character classes are modelled over ASCII: `\s` is the six ASCII whitespace
characters and `\w` is alphanumeric-or-underscore, which agrees with the
Python behaviour on the header files this tool consumes.
-/

namespace DumpFormat

/-- ASCII model of Python's `\s` class and of the characters removed by
`str.strip()`: space, tab, newline, carriage return, vertical tab, form feed. -/
def isPySpace (c : Char) : Bool :=
  c = ' ' || c = '\t' || c = '\n' || c = '\r' || c = '\x0b' || c = '\x0c'

/-- ASCII model of Python's `\w` class: letters, digits and underscore. -/
def isWordChar (c : Char) : Bool :=
  c.isAlphanum || c = '_'

/-- Python `str.strip()`: remove leading and trailing whitespace. -/
def pyStrip (s : List Char) : List Char :=
  ((s.dropWhile isPySpace).reverse.dropWhile isPySpace).reverse

/-- Index of the leftmost occurrence of `p` as a contiguous substring of `s`
(the smallest `i` with `p` a prefix of `s.drop i`), or `none`. -/
def firstOcc (p : List Char) : List Char → Option Nat
  | [] => if p.isPrefixOf [] then some 0 else none
  | c :: tl =>
    if p.isPrefixOf (c :: tl) then some 0
    else (firstOcc p tl).map (· + 1)

/-- Index of the rightmost occurrence of `p` as a contiguous substring of `s`,
or `none`. -/
def lastOcc (p : List Char) : List Char → Option Nat
  | [] => if p.isPrefixOf [] then some 0 else none
  | c :: tl =>
    match lastOcc p tl with
    | some i => some (i + 1)
    | none => if p.isPrefixOf (c :: tl) then some 0 else none

theorem firstOcc_some_isPrefix {p s : List Char} {i : Nat}
    (h : firstOcc p s = some i) : p <+: s.drop i := by
  induction s generalizing i with
  | nil =>
    simp only [firstOcc] at h
    split at h
    · obtain rfl : (0 : Nat) = i := by simpa using h
      simp_all
    · simp at h
  | cons c tl ih =>
    simp only [firstOcc] at h
    split at h
    · obtain rfl : (0 : Nat) = i := by simpa using h
      simp_all
    · rcases Option.map_eq_some'.mp h with ⟨j, hj, rfl⟩
      simpa using ih hj

theorem firstOcc_some_min {p s : List Char} {i : Nat}
    (h : firstOcc p s = some i) :
    ∀ q, q < i → ¬ p <+: s.drop q := by
  induction s generalizing i with
  | nil =>
    simp only [firstOcc] at h
    split at h
    · obtain rfl : (0 : Nat) = i := by simpa using h
      omega
    · simp at h
  | cons c tl ih =>
    simp only [firstOcc] at h
    split at h
    · obtain rfl : (0 : Nat) = i := by simpa using h
      omega
    · next hpre =>
      rcases Option.map_eq_some'.mp h with ⟨j, hj, rfl⟩
      intro q hq
      match q with
      | 0 => simpa using hpre
      | q' + 1 =>
        have := ih hj q' (by omega)
        simpa using this

theorem firstOcc_none {p s : List Char} (h : firstOcc p s = none) :
    ∀ q, ¬ p <+: s.drop q := by
  induction s with
  | nil =>
    intro q
    simp only [firstOcc] at h
    split at h
    · simp at h
    · next hpre => simp_all
  | cons c tl ih =>
    intro q
    simp only [firstOcc] at h
    split at h
    · simp at h
    · next hpre =>
      have h' : firstOcc p tl = none := Option.map_eq_none'.mp h
      match q with
      | 0 => simpa using hpre
      | q' + 1 => simpa using ih h' q'

theorem lastOcc_none {p s : List Char} (h : lastOcc p s = none) :
    ∀ q, ¬ p <+: s.drop q := by
  induction s with
  | nil =>
    intro q
    simp only [lastOcc] at h
    split at h
    · simp at h
    · next hpre => simp_all
  | cons c tl ih =>
    intro q
    simp only [lastOcc] at h
    rcases h' : lastOcc p tl with _ | j
    · rw [h'] at h
      simp only at h
      split at h
      · simp at h
      · next hpre =>
        match q with
        | 0 => simpa using hpre
        | q' + 1 => simpa using ih h' q'
    · rw [h'] at h
      simp at h

theorem lastOcc_some_isPrefix {p s : List Char} {i : Nat}
    (h : lastOcc p s = some i) : p <+: s.drop i := by
  induction s generalizing i with
  | nil =>
    simp only [lastOcc] at h
    split at h
    · obtain rfl : (0 : Nat) = i := by simpa using h
      simp_all
    · simp at h
  | cons c tl ih =>
    simp only [lastOcc] at h
    rcases h' : lastOcc p tl with _ | j
    · rw [h'] at h
      simp only at h
      split at h
      · obtain rfl : (0 : Nat) = i := by simpa using h
        simp_all
      · simp at h
    · rw [h'] at h
      obtain rfl : j + 1 = i := by simpa using h
      simpa using ih h'

theorem lastOcc_some_max {p s : List Char} {i : Nat} (hp : p ≠ [])
    (h : lastOcc p s = some i) :
    ∀ q, i < q → ¬ p <+: s.drop q := by
  induction s generalizing i with
  | nil =>
    simp only [lastOcc] at h
    split at h
    · obtain rfl : (0 : Nat) = i := by simpa using h
      intro q hq
      match q with
      | q' + 1 => simp_all
    · simp at h
  | cons c tl ih =>
    simp only [lastOcc] at h
    rcases h' : lastOcc p tl with _ | j
    · rw [h'] at h
      simp only at h
      split at h
      · obtain rfl : (0 : Nat) = i := by simpa using h
        intro q hq
        match q with
        | q' + 1 => simpa using lastOcc_none h' q'
      · simp at h
    · rw [h'] at h
      obtain rfl : j + 1 = i := by simpa using h
      intro q hq
      match q with
      | q' + 1 => simpa using ih h' q' (by omega)

/-- `lastOcc` is determined by "is an occurrence and nothing later is". -/
theorem lastOcc_eq_of_max {p s : List Char} {i : Nat} (hp : p ≠ [])
    (hi : p <+: s.drop i)
    (hmax : ∀ q, i < q → ¬ p <+: s.drop q) :
    lastOcc p s = some i := by
  match h : lastOcc p s with
  | none => exact absurd hi (lastOcc_none h i)
  | some j =>
    rcases Nat.lt_trichotomy i j with hij | hij | hij
    · exact absurd (lastOcc_some_isPrefix h) (hmax j hij)
    · rw [hij]
    · exact absurd hi (lastOcc_some_max hp h i hij)

/-- `firstOcc` is determined by "is an occurrence and nothing earlier is". -/
theorem firstOcc_eq_of_min {p s : List Char} {i : Nat}
    (hi : p <+: s.drop i)
    (hmin : ∀ q, q < i → ¬ p <+: s.drop q) :
    firstOcc p s = some i := by
  match h : firstOcc p s with
  | none => exact absurd hi (firstOcc_none h i)
  | some j =>
    rcases Nat.lt_trichotomy i j with hij | hij | hij
    · exact absurd hi (firstOcc_some_min h i hij)
    · rw [hij]
    · exact absurd (firstOcc_some_isPrefix h) (hmin j hij)

/-! ### Python `%` string formatting with a single string argument

`substitute` evaluates `fmt % replacement` where `replacement` is one string.
`%s` splices the argument (raising `not enough arguments` when the argument
was already consumed), `%%` is a literal percent, and a trailing `%` raises.
Any other conversion raises for a string argument in CPython (numeric
conversions require a number; this model reports every non-`%s`/`%%`
conversion as an error — the `%r`/`%a`/`%c` conversions, which CPython would
accept, never arise from the patterns `substitute` builds).  If the scan
finishes without consuming the argument, CPython raises `not all arguments
converted during string formatting`. -/

/-- One pass of `fmt % arg`; `used` records whether the single argument has
already been consumed. -/
def pyFormatGo (arg : List Char) : List Char → Bool → Except (List Char) (List Char)
  | [], used =>
    if used then .ok []
    else .error "not all arguments converted during string formatting".toList
  | [c], used =>
    if c = '%' then .error "incomplete format".toList
    else (pyFormatGo arg [] used).map (c :: ·)
  | c :: d :: rest, used =>
    if c = '%' then
      if d = 's' then
        if used then .error "not enough arguments for format string".toList
        else (pyFormatGo arg rest true).map (arg ++ ·)
      else if d = '%' then (pyFormatGo arg rest used).map ('%' :: ·)
      else .error ("unsupported format character ".toList ++ [d])
    else (pyFormatGo arg (d :: rest) used).map (c :: ·)

/-- Python `fmt % arg` for a single string argument `arg`. -/
def pyFormat (fmt arg : List Char) : Except (List Char) (List Char) :=
  pyFormatGo arg fmt false

/-- The begin-marker line of an anchored region:
`\n.. START_<tag>\n` (the regex `\n\.\. START_%s\n`, with `tag` spliced in
literally; the tags the tool uses contain no regex metacharacters). -/
def startMarker (tag : List Char) : List Char :=
  "\n.. START_".toList ++ tag ++ "\n".toList

/-- The end-marker line of an anchored region: `\n.. END_<tag>\n`. -/
def endMarker (tag : List Char) : List Char :=
  "\n.. END_".toList ++ tag ++ "\n".toList

/-- The freshly wrapped body `'\n.. START_%s\n\n%s\n\n.. END_%s\n' %
(tag, contents, tag)`. -/
def wrapBody (tag contents : List Char) : List Char :=
  "\n.. START_".toList ++ tag ++ "\n\n".toList ++ contents
    ++ "\n\n.. END_".toList ++ tag ++ "\n".toList

/-- `re.sub(r'\n\.\. START_%s\n.*\n\.\. END_%s\n' % (tag, tag), '%s', text,
flags=re.S)` specialised: with `re.S` the greedy `.*` runs from the leftmost
begin-marker occurrence to the rightmost end-marker occurrence after it, so
at most one region is replaced.  Returns the text before and after the
matched span, or `none` when the pattern does not match. -/
def anchorSpan (p1 p2 text : List Char) : Option (List Char × List Char) :=
  (firstOcc p1 text).bind fun i =>
    (lastOcc p2 (text.drop (i + p1.length))).map fun j =>
      (text.take i, text.drop (i + p1.length + j + p2.length))

/-- The format string produced by the `re.sub` call inside `substitute`:
the matched anchored span is replaced by the two characters `%s`; with no
match, `re.sub` returns the text unchanged. -/
def anchorFmt (p1 p2 text : List Char) : List Char :=
  (((anchorSpan p1 p2 text).map fun pr => pr.1 ++ "%s".toList ++ pr.2).getD text)

/-- `substitute(text, tag, contents)` from the source:
wrap the contents, replace the anchored span with `%s` via `re.sub`, then
apply Python `%` formatting of the wrapped contents into the result. -/
def substitute (text tag contents : List Char) : Except (List Char) (List Char) :=
  pyFormat (anchorFmt (startMarker tag) (endMarker tag) text) (wrapBody tag contents)

theorem pyFormatGo_cons_ne_percent {arg rest : List Char} {c : Char} {used : Bool}
    (hc : c ≠ '%') :
    pyFormatGo arg (c :: rest) used = (pyFormatGo arg rest used).map (c :: ·) := by
  cases rest with
  | nil => simp [pyFormatGo, hc]
  | cons d r2 => simp [pyFormatGo, hc]

theorem pyFormatGo_append_of_no_percent {arg u rest : List Char} {used : Bool}
    (h : '%' ∉ u) :
    pyFormatGo arg (u ++ rest) used = (pyFormatGo arg rest used).map (u ++ ·) := by
  induction u with
  | nil =>
    simp only [List.nil_append]
    rcases pyFormatGo arg rest used with e | v <;> simp [Except.map]
  | cons c tl ih =>
    have hc : c ≠ '%' := by intro hc; exact h (by simp [hc])
    have htl : '%' ∉ tl := by intro hm; exact h (by simp [hm])
    rw [List.cons_append, pyFormatGo_cons_ne_percent hc, ih htl]
    rcases pyFormatGo arg rest used with e | v <;> simp [Except.map]

theorem pyFormatGo_empty (arg : List Char) {used : Bool} (h : used = true) :
    pyFormatGo arg [] used = .ok [] := by
  subst h; simp [pyFormatGo]

theorem pyFormat_pre_conv_post {pre post arg : List Char}
    (hpre : '%' ∉ pre) (hpost : '%' ∉ post) :
    pyFormat (pre ++ "%s".toList ++ post) arg = .ok (pre ++ arg ++ post) := by
  have h2 : pyFormatGo arg ("%s".toList ++ post) false
      = (pyFormatGo arg post true).map (arg ++ ·) := by
    show pyFormatGo arg ('%' :: 's' :: post) false = _
    cases post with
    | nil => simp [pyFormatGo]
    | cons d r2 => simp [pyFormatGo]
  have h3 : pyFormatGo arg post true = .ok post := by
    have := @pyFormatGo_append_of_no_percent arg post [] true hpost
    rw [List.append_nil] at this
    rw [this, pyFormatGo_empty arg rfl]
    simp [Except.map]
  rw [pyFormat, List.append_assoc, pyFormatGo_append_of_no_percent hpre, h2, h3]
  simp [Except.map, List.append_assoc]

/-- `fmt % arg` with no `%` at all in `fmt` raises
`not all arguments converted`. -/
theorem pyFormat_no_percent {fmt arg : List Char} (h : '%' ∉ fmt) :
    pyFormat fmt arg
      = .error "not all arguments converted during string formatting".toList := by
  have := @pyFormatGo_append_of_no_percent arg fmt [] false h
  simpa [pyFormat, pyFormatGo, Except.map] using this

/-- A pattern no longer than `u` meets `u ++ v` exactly when it meets `u`. -/
theorem prefix_append_iff_of_le {p u v : List Char} (h : p.length ≤ u.length) :
    p <+: u ++ v ↔ p <+: u := by
  have ht : (u ++ v).take p.length = u.take p.length := by
    rw [List.take_append_eq_append_take, Nat.sub_eq_zero_of_le h]
    simp
  rw [List.prefix_iff_eq_take, List.prefix_iff_eq_take, ht]

theorem startMarker_ne_nil (tag : List Char) : startMarker tag ≠ [] := by
  intro h
  have hl := congrArg List.length h
  have h10 : ("\n.. START_".toList).length = 10 := rfl
  simp [startMarker, h10] at hl

theorem endMarker_ne_nil (tag : List Char) : endMarker tag ≠ [] := by
  intro h
  have hl := congrArg List.length h
  have h8 : ("\n.. END_".toList).length = 8 := rfl
  simp [endMarker, h8] at hl

/-- The wrapped replacement is the begin marker, a blank line, the body, a
blank line, and the end marker. -/
theorem wrapBody_eq (tag body : List Char) :
    wrapBody tag body
      = startMarker tag ++ (('\n' :: (body ++ ['\n'])) ++ endMarker tag) := by
  have e1 : ("\n\n".toList : List Char) = '\n' :: "\n".toList := rfl
  have e2 : ("\n\n.. END_".toList : List Char) = '\n' :: "\n.. END_".toList := rfl
  simp [wrapBody, startMarker, endMarker, e1, e2]

/-- Splitting a successful `anchorSpan`: the text decomposes around the
matched span, no begin-marker occurrence starts before `pre` ends, and no
end-marker occurrence starts after the matched one. -/
theorem firstOcc_some_le_length {p s : List Char} {i : Nat}
    (h : firstOcc p s = some i) : i ≤ s.length := by
  induction s generalizing i with
  | nil =>
    simp only [firstOcc] at h
    split at h
    · obtain rfl : (0 : Nat) = i := by simpa using h
      simp
    · simp at h
  | cons c tl ih =>
    simp only [firstOcc] at h
    split at h
    · obtain rfl : (0 : Nat) = i := by simpa using h
      simp
    · rcases Option.map_eq_some'.mp h with ⟨j, hj, rfl⟩
      have := ih hj
      simp only [List.length_cons]
      omega

theorem anchorSpan_decomp {p1 p2 text pre post : List Char}
    (hp2 : p2 ≠ [])
    (h : anchorSpan p1 p2 text = some (pre, post)) :
    ∃ mid, text = pre ++ (p1 ++ (mid ++ (p2 ++ post))) ∧
      (∀ q, q < pre.length → ¬ p1 <+: pre.drop q ++ p1) ∧
      (∀ d, 1 ≤ d → ¬ p2 <+: (p2 ++ post).drop d) := by
  rcases hf : firstOcc p1 text with _ | i
  · simp [anchorSpan, hf] at h
  rcases hl : lastOcc p2 (text.drop (i + p1.length)) with _ | j
  · simp [anchorSpan, hf, hl] at h
  simp only [anchorSpan, hf, hl, Option.some_bind, Option.map_some',
    Option.some_inj, Prod.mk.injEq] at h
  obtain ⟨hpre, hpost⟩ := h
  obtain ⟨r1, hr1⟩ := firstOcc_some_isPrefix hf
  have hdropi : text.drop (i + p1.length) = r1 := by
    rw [← List.drop_drop, ← hr1, List.drop_left]
  rw [hdropi] at hl
  obtain ⟨w, hw⟩ := lastOcc_some_isPrefix hl
  have hprelen : pre.length = i := by
    rw [← hpre, List.length_take]
    have := firstOcc_some_le_length hf
    omega
  have htext : text = pre ++ (p1 ++ r1) := by
    rw [← hpre, hr1, List.take_append_drop]
  have hpost' : post = w := by
    have hsplit : text.drop (i + p1.length + j + p2.length)
        = (r1.drop j).drop p2.length := by
      rw [← List.drop_drop, ← List.drop_drop, hdropi]
    rw [← hpost, hsplit, ← hw, List.drop_left]
  have hr1split : r1 = r1.take j ++ (p2 ++ w) := by
    conv_lhs => rw [← List.take_append_drop j r1]
    rw [← hw]
  subst hpost'
  refine ⟨r1.take j, ?_, ?_, ?_⟩
  · rw [htext]
    exact congrArg (fun z => pre ++ (p1 ++ z)) hr1split
  · intro q hq
    rw [hprelen] at hq
    have hmin := firstOcc_some_min hf q hq
    intro hcon
    apply hmin
    have hdq : text.drop q = (pre.drop q ++ p1) ++ r1 := by
      rw [htext, List.drop_append_eq_append_drop,
        Nat.sub_eq_zero_of_le (by omega), List.drop_zero, ← List.append_assoc]
    rw [hdq]
    refine (prefix_append_iff_of_le ?_).mpr hcon
    simp
  · intro d hd
    have hmax := lastOcc_some_max hp2 hl (j + d) (by omega)
    intro hcon
    apply hmax
    rw [← List.drop_drop, ← hw]
    exact hcon

/-- Rebuilding `anchorSpan`: a text of the decomposed shape whose outer
parts satisfy the two no-earlier/no-later occurrence conditions matches
exactly at the explicit span. -/
theorem anchorSpan_of_parts {p1 p2 pre mid post : List Char}
    (hp2 : p2 ≠ [])
    (h2 : ∀ q, q < pre.length → ¬ p1 <+: pre.drop q ++ p1)
    (h3 : ∀ d, 1 ≤ d → ¬ p2 <+: (p2 ++ post).drop d) :
    anchorSpan p1 p2 (pre ++ (p1 ++ (mid ++ (p2 ++ post)))) = some (pre, post) := by
  set text := pre ++ (p1 ++ (mid ++ (p2 ++ post))) with htext
  have hfirst : firstOcc p1 text = some pre.length := by
    apply firstOcc_eq_of_min
    · rw [htext, List.drop_left]
      exact List.prefix_append _ _
    · intro q hq
      intro hcon
      apply h2 q hq
      have hdq : text.drop q = (pre.drop q ++ p1) ++ (mid ++ (p2 ++ post)) := by
        rw [htext, List.drop_append_eq_append_drop,
          Nat.sub_eq_zero_of_le (by omega), List.drop_zero, ← List.append_assoc]
      rw [hdq] at hcon
      exact (prefix_append_iff_of_le (by simp)).mp hcon
  have hdrop1 : text.drop (pre.length + p1.length) = mid ++ (p2 ++ post) := by
    rw [htext, ← List.drop_drop, List.drop_left, List.drop_left]
  have hlast : lastOcc p2 (text.drop (pre.length + p1.length)) = some mid.length := by
    rw [hdrop1]
    apply lastOcc_eq_of_max hp2
    · rw [List.drop_left]
      exact List.prefix_append _ _
    · intro q hq
      have hdq : (mid ++ (p2 ++ post)).drop q = (p2 ++ post).drop (q - mid.length) := by
        rw [List.drop_append_eq_append_drop,
          List.drop_eq_nil_of_le (by omega), List.nil_append]
      rw [hdq]
      exact h3 (q - mid.length) (by omega)
  have htake : text.take pre.length = pre := by
    rw [htext]
    exact List.take_left' rfl
  have hdropall : text.drop (pre.length + p1.length + mid.length + p2.length) = post := by
    rw [htext, show pre ++ (p1 ++ (mid ++ (p2 ++ post)))
        = (pre ++ p1 ++ mid ++ p2) ++ post from by simp [List.append_assoc]]
    exact List.drop_left' (by simp only [List.length_append])
  simp only [anchorSpan, hfirst, hlast, Option.some_bind, Option.map_some',
    htake, hdropall]

/-- A successful anchored match with percent-free surroundings formats to
the surroundings around the freshly wrapped body. -/
theorem substitute_ok_of_span {text tag contents pre post : List Char}
    (h : anchorSpan (startMarker tag) (endMarker tag) text = some (pre, post))
    (hpre : '%' ∉ pre) (hpost : '%' ∉ post) :
    substitute text tag contents = .ok (pre ++ wrapBody tag contents ++ post) := by
  rw [substitute, show anchorFmt (startMarker tag) (endMarker tag) text
      = pre ++ "%s".toList ++ post from by simp [anchorFmt, h]]
  exact pyFormat_pre_conv_post hpre hpost

/-- Number of occurrence positions of `p` as a contiguous substring of `s`. -/
def countOcc (p s : List Char) : Nat :=
  (((List.range (s.length + 1)).filter fun q => p.isPrefixOf (s.drop q))).length

/-- The claim's "exactly one anchored region for a tag": one occurrence of
the begin-marker line, one of the end-marker line, and the substitution
pattern matches. -/
def exactlyOneAnchoredRegion (tag doc : List Char) : Prop :=
  countOcc (startMarker tag) doc = 1 ∧ countOcc (endMarker tag) doc = 1 ∧
    anchorSpan (startMarker tag) (endMarker tag) doc ≠ none

/-- C1, counterexample: the document `%%x\n.. START_T\n\n.. END_T\n` has
exactly one anchored region for tag `T`, yet substituting twice is not the
same as substituting once — the first substitution collapses the literal
`%%` to `%` (it feeds the whole remaining document through `%` formatting),
so the second substitution raises a format error. -/
theorem substitute_twice_differs_counterexample :
    exactlyOneAnchoredRegion "T".toList "%%x\n.. START_T\n\n.. END_T\n".toList ∧
    (substitute "%%x\n.. START_T\n\n.. END_T\n".toList "T".toList "b".toList).bind
        (fun r => substitute r "T".toList "b".toList)
      ≠ substitute "%%x\n.. START_T\n\n.. END_T\n".toList "T".toList "b".toList := by
  refine ⟨⟨by decide, by decide, by decide⟩, fun hcontra => ?_⟩
  have h1 : (substitute "%%x\n.. START_T\n\n.. END_T\n".toList "T".toList "b".toList).bind
      (fun r => substitute r "T".toList "b".toList)
      = Except.error ("unsupported format character ".toList ++ ['x']) := rfl
  have h2 : substitute "%%x\n.. START_T\n\n.. END_T\n".toList "T".toList "b".toList
      = Except.ok ("%x".toList ++ wrapBody "T".toList "b".toList) := rfl
  rw [h1, h2] at hcontra
  exact Except.noConfusion hcontra

/-- C1 (amended): if the document contains an anchored region for the tag
(the substitution pattern matches, splitting the document as `pre`, span,
`post`) and the document contains no `%` character outside the matched
span, then substituting once succeeds and substituting the same tag and
body again returns the same result:
`substitute(substitute(doc,tag,body),tag,body) = substitute(doc,tag,body)`. -/
theorem substitute_idempotent_when_no_percent_outside
    {text tag body pre post : List Char}
    (hspan : anchorSpan (startMarker tag) (endMarker tag) text = some (pre, post))
    (hpre : '%' ∉ pre) (hpost : '%' ∉ post) :
    substitute text tag body = .ok (pre ++ wrapBody tag body ++ post) ∧
    substitute (pre ++ wrapBody tag body ++ post) tag body
      = .ok (pre ++ wrapBody tag body ++ post) ∧
    (substitute text tag body).bind (fun r => substitute r tag body)
      = substitute text tag body := by
  obtain ⟨mid, htext, h2, h3⟩ := anchorSpan_decomp (endMarker_ne_nil tag) hspan
  have honce : substitute text tag body = .ok (pre ++ wrapBody tag body ++ post) :=
    substitute_ok_of_span hspan hpre hpost
  have hshape : pre ++ wrapBody tag body ++ post
      = pre ++ (startMarker tag
          ++ (('\n' :: (body ++ ['\n'])) ++ (endMarker tag ++ post))) := by
    simp [wrapBody_eq, List.append_assoc]
  have hr : anchorSpan (startMarker tag) (endMarker tag)
      (pre ++ wrapBody tag body ++ post) = some (pre, post) := by
    rw [hshape]
    exact anchorSpan_of_parts (endMarker_ne_nil tag) h2 h3
  have hagain : substitute (pre ++ wrapBody tag body ++ post) tag body
      = .ok (pre ++ wrapBody tag body ++ post) :=
    substitute_ok_of_span hr hpre hpost
  refine ⟨honce, hagain, ?_⟩
  rw [honce]
  simpa [Except.bind] using hagain

/-- Witness for C1's amended theorem at a concrete document with one
anchored region and percent-free surroundings. -/
theorem substitute_idempotent_when_no_percent_outside_witness :
    anchorSpan (startMarker "T".toList) (endMarker "T".toList)
        "pre\n.. START_T\nold\n.. END_T\npost".toList
      = some ("pre".toList, "post".toList) ∧
    (substitute "pre\n.. START_T\nold\n.. END_T\npost".toList "T".toList "b".toList).bind
        (fun r => substitute r "T".toList "b".toList)
      = substitute "pre\n.. START_T\nold\n.. END_T\npost".toList "T".toList "b".toList :=
  ⟨rfl,
    (@substitute_idempotent_when_no_percent_outside
      "pre\n.. START_T\nold\n.. END_T\npost".toList "T".toList "b".toList
      "pre".toList "post".toList rfl (by decide) (by decide)).2.2⟩

/-- C6, counterexample: the document `%s` contains no anchored region for
tag `X`, yet `substitute` does not raise — the untouched document is fed
through `%` formatting, the stray `%s` consumes the wrapped body, and the
call silently returns a document consisting of content spliced where no
anchor was. -/
theorem substitute_missing_anchor_no_error_counterexample :
    anchorSpan (startMarker "X".toList) (endMarker "X".toList) "%s".toList = none ∧
    substitute "%s".toList "X".toList "b".toList
      = .ok (wrapBody "X".toList "b".toList) :=
  ⟨rfl, rfl⟩

/-- C6 (amended): on a document that contains no anchored region for the
tag and no `%` character at all, `substitute` raises (the unreplaced
document goes through `%` formatting with an unconsumed argument). -/
theorem substitute_missing_anchor_raises_when_percent_free
    {doc tag body : List Char}
    (hno : anchorSpan (startMarker tag) (endMarker tag) doc = none)
    (hp : '%' ∉ doc) :
    substitute doc tag body
      = .error "not all arguments converted during string formatting".toList := by
  rw [substitute, show anchorFmt (startMarker tag) (endMarker tag) doc = doc from by
    simp [anchorFmt, hno]]
  exact pyFormat_no_percent hp

/-- Witness for C6's amended theorem at a concrete percent-free document
with no anchored region. -/
theorem substitute_missing_anchor_raises_when_percent_free_witness :
    substitute "hello".toList "X".toList "b".toList
      = .error "not all arguments converted during string formatting".toList :=
  @substitute_missing_anchor_raises_when_percent_free
    "hello".toList "X".toList "b".toList rfl (by decide)

/-- C10: a document with an anchored region for tag `T` but a literal `%s`
before it makes `substitute` raise: after the anchored span is replaced by
a `%s` conversion, the whole remaining document is `%`-formatted, and the
extra conversion runs out of arguments. -/
theorem substitute_percent_outside_anchor_raises :
    anchorSpan (startMarker "T".toList) (endMarker "T".toList)
        "A%s\n.. START_T\nold\n.. END_T\n".toList = some ("A%s".toList, []) ∧
    '%' ∈ "A%s".toList ∧
    substitute "A%s\n.. START_T\nold\n.. END_T\n".toList "T".toList "new".toList
      = .error "not enough arguments for format string".toList :=
  ⟨rfl, by decide, rfl⟩

/-! ### `doxygen2rst`: the three markup conversions

`doxygen2rst` applies, in order,
`re.sub(r'<tt>\s*(.*?)\s*<\/tt>', r'``\1``', text)`,
`re.sub(r'\\c ([^ ,;\.]+)', r'``\1``', text)` and
`re.sub(r'\\\w+ ', '', text)`.

The first pattern needs care: `\s*` is greedy and may cross newlines while
the lazy `(.*?)` cannot (no `re.S` here), so a match from an opening tag
first skips the maximal whitespace run, then grows the capture one
non-newline character at a time, before each growth step testing whether a
whitespace run followed by `</tt>` completes the match.  `ttGo` reproduces
exactly this search order; shrinking the leading `\s*` never yields a match
the maximal run misses, because a shorter run only forces whitespace into
the dot, and a `</tt>` can only follow a whitespace run at the run's end.
The scanning functions recurse on a fuel argument initialised to the text
length (every step consumes at least one character). -/

/-- The backtracking search for `\s*(.*?)\s*</tt>` after the leading
whitespace run: `cap` is the capture built so far; at each position first
try to finish with a whitespace run followed by `</tt>`, else move one
non-newline character into the capture. -/
def ttGo : List Char → List Char → Option (List Char × List Char)
  | cap, t =>
    if "</tt>".toList.isPrefixOf (t.dropWhile isPySpace) then
      some (cap, (t.dropWhile isPySpace).drop 5)
    else
      match t with
      | [] => none
      | ch :: tl => if ch = '\n' then none else ttGo (cap ++ [ch]) tl

/-- Match of `\s*(.*?)\s*</tt>` against the text following an opening
`<tt>`: returns the capture and the text after the match, if any. -/
def ttMatchAfter (s : List Char) : Option (List Char × List Char) :=
  ttGo [] (s.dropWhile isPySpace)

/-- `re.sub(r'<tt>\s*(.*?)\s*<\/tt>', r'``\1``', ·)`, fuelled scan. -/
def ttSubGo : Nat → List Char → List Char
  | 0, s => s
  | fuel + 1, [] => []
  | fuel + 1, c :: tl =>
    if "<tt>".toList.isPrefixOf (c :: tl) then
      match ttMatchAfter (tl.drop 3) with
      | some (cap, rest) => '`' :: '`' :: (cap ++ '`' :: '`' :: ttSubGo fuel rest)
      | none => c :: ttSubGo fuel tl
    else c :: ttSubGo fuel tl

def ttSub (s : List Char) : List Char := ttSubGo s.length s

/-- The character class `[^ ,;\.]` excludes exactly these four. -/
def isBcDelim (ch : Char) : Bool :=
  ch = ' ' || ch = ',' || ch = ';' || ch = '.'

/-- `re.sub(r'\\c ([^ ,;\.]+)', r'``\1``', ·)`, fuelled scan: on `\c ` with
at least one non-delimiter following, wrap the maximal run in backticks. -/
def bcSubGo : Nat → List Char → List Char
  | 0, s => s
  | fuel + 1, [] => []
  | fuel + 1, c :: tl =>
    if "\\c ".toList.isPrefixOf (c :: tl) then
      let rest := tl.drop 2
      let cap := rest.takeWhile fun ch => !(isBcDelim ch)
      if cap.isEmpty then c :: bcSubGo fuel tl
      else '`' :: '`' :: (cap ++ '`' :: '`' :: bcSubGo fuel (rest.drop cap.length))
    else c :: bcSubGo fuel tl

def bcSub (s : List Char) : List Char := bcSubGo s.length s

/-- `re.sub(r'\\\w+ ', '', ·)`, fuelled scan: a backslash, a maximal
nonempty word-character run and one space are deleted. -/
def bwSubGo : Nat → List Char → List Char
  | 0, s => s
  | fuel + 1, [] => []
  | fuel + 1, c :: tl =>
    if c = '\\' then
      let w := tl.takeWhile isWordChar
      if w.isEmpty then c :: bwSubGo fuel tl
      else
        match tl.drop w.length with
        | d :: rest2 =>
          if d = ' ' then bwSubGo fuel rest2 else c :: bwSubGo fuel tl
        | [] => c :: bwSubGo fuel tl
    else c :: bwSubGo fuel tl

def bwSub (s : List Char) : List Char := bwSubGo s.length s

/-- `doxygen2rst` from the source: teletype tags, then `\c` word emphasis,
then stripping of remaining backslash commands. -/
def doxygen2rst (text : List Char) : List Char :=
  bwSub (bcSub (ttSub text))

theorem ttSubGo_id_of_no_tt {s : List Char} (h : ¬ "<tt>".toList <:+: s) :
    ∀ fuel, ttSubGo fuel s = s := by
  intro fuel
  induction fuel generalizing s with
  | zero => rfl
  | succ fuel ih =>
    match s with
    | [] => rfl
    | c :: tl =>
      have hpre : "<tt>".toList.isPrefixOf (c :: tl) = false := by
        by_contra hcon
        exact h ((List.isPrefixOf_iff_prefix.mp (by simpa using hcon)).isInfix)
      have htl : ¬ "<tt>".toList <:+: tl := fun hcon => h (hcon.trans (List.suffix_cons c tl).isInfix)
      simp only [ttSubGo, hpre, Bool.false_eq_true, if_false, ih htl]

theorem bcSubGo_id_of_no_backslash {s : List Char} (h : '\\' ∉ s) :
    ∀ fuel, bcSubGo fuel s = s := by
  intro fuel
  induction fuel generalizing s with
  | zero => rfl
  | succ fuel ih =>
    match s with
    | [] => rfl
    | c :: tl =>
      have hc : c ≠ '\\' := fun hcon => h (by simp [hcon])
      have hpre : "\\c ".toList.isPrefixOf (c :: tl) = false := by
        by_contra hcon
        have hcon' : '\\' = c ∧ ['c', ' '] <+: tl := by simpa using hcon
        exact hc hcon'.1.symm
      have htl : '\\' ∉ tl := fun hcon => h (by simp [hcon])
      simp only [bcSubGo, hpre, Bool.false_eq_true, if_false, ih htl]

theorem bwSubGo_id_of_no_backslash {s : List Char} (h : '\\' ∉ s) :
    ∀ fuel, bwSubGo fuel s = s := by
  intro fuel
  induction fuel generalizing s with
  | zero => rfl
  | succ fuel ih =>
    match s with
    | [] => rfl
    | c :: tl =>
      have hc : (c = '\\') = False := by
        simp only [eq_iff_iff, iff_false]
        exact fun hcon => h (by simp [hcon])
      have htl : '\\' ∉ tl := fun hcon => h (by simp [hcon])
      simp only [bwSubGo, hc, if_false, ih htl]

/-- A text containing no `<tt>` and no backslash is a `doxygen2rst` fixed
point. -/
theorem doxygen2rst_id_of_clean {y : List Char}
    (h1 : ¬ "<tt>".toList <:+: y) (h2 : '\\' ∉ y) :
    doxygen2rst y = y := by
  rw [doxygen2rst, ttSub, ttSubGo_id_of_no_tt h1, bcSub,
    bcSubGo_id_of_no_backslash h2, bwSub, bwSubGo_id_of_no_backslash h2]

/-- C2, counterexample: `doxygen2rst` is not idempotent.  On the input
`<tt><tt>a</tt></tt>` the lazy teletype rule rewrites the outer opening tag
with the inner one captured, producing a fresh matchable pair, so a second
application rewrites again. -/
theorem doxygen2rst_not_idempotent_counterexample :
    doxygen2rst "<tt><tt>a</tt></tt>".toList
        = "``<tt>a``</tt>".toList ∧
    doxygen2rst (doxygen2rst "<tt><tt>a</tt></tt>".toList)
      ≠ doxygen2rst "<tt><tt>a</tt></tt>".toList := by
  refine ⟨by decide, fun hcontra => ?_⟩
  have h1 : doxygen2rst (doxygen2rst "<tt><tt>a</tt></tt>".toList)
      = "````a````".toList := by decide
  have h2 : doxygen2rst "<tt><tt>a</tt></tt>".toList
      = "``<tt>a``</tt>".toList := by decide
  rw [h1, h2] at hcontra
  exact absurd hcontra (by decide)

/-- C2 (amended): `doxygen2rst` is idempotent on every input whose image
contains no remaining `<tt>` opening tag and no backslash — in particular
on all inputs whose markup is non-nested and well formed.  A nested
teletype tag (or a backslash command whose deletion splices a new `<tt>`
together) escapes the single pass and breaks idempotence in general. -/
theorem doxygen2rst_idempotent_of_clean_image {x : List Char}
    (h1 : ¬ "<tt>".toList <:+: doxygen2rst x)
    (h2 : '\\' ∉ doxygen2rst x) :
    doxygen2rst (doxygen2rst x) = doxygen2rst x :=
  doxygen2rst_id_of_clean h1 h2

/-- Witness for C2's amended theorem at a concrete markup-bearing input. -/
theorem doxygen2rst_idempotent_of_clean_image_witness :
    doxygen2rst (doxygen2rst "<tt> a </tt> \\c foo, \\kw bar".toList)
      = doxygen2rst "<tt> a </tt> \\c foo, \\kw bar".toList :=
  @doxygen2rst_idempotent_of_clean_image "<tt> a </tt> \\c foo, \\kw bar".toList
    (by decide) (by decide)

/-! ### `indent` -/

/-- `re.sub(r'\n([^\n])', '\n' + indent + '\\1', text, flags=re.S)`:
insert the indentation after every newline that is followed by a
non-newline character. -/
def indentSub (ind : List Char) : List Char → List Char
  | [] => []
  | '\n' :: c :: tl =>
    if c = '\n' then '\n' :: indentSub ind (c :: tl)
    else '\n' :: (ind ++ c :: indentSub ind tl)
  | c :: tl => c :: indentSub ind tl

/-- `s.startswith('\n')`. -/
def startswithNewline : List Char → Bool
  | c :: _ => c = '\n'
  | [] => false

/-- `indent(text, columns, indent_first_line=True)` from the source. -/
def indent (text : List Char) (columns : Nat) (indent_first_line : Bool) : List Char :=
  let ind := List.replicate columns ' '
  let s := indentSub ind text
  if !indent_first_line || startswithNewline s then s
  else ind ++ s

/-- C9, counterexample: with `indent_first_line` left at its default
`True`, `indent` applied to the empty text returns the bare indentation
prefix, not the empty text. -/
theorem indent_empty_adds_prefix_counterexample :
    indent [] 2 true ≠ [] ∧ indent [] 2 true = [' ', ' '] := by
  refine ⟨fun hcontra => ?_, by decide⟩
  have h : indent [] 2 true = [' ', ' '] := by decide
  rw [h] at hcontra
  exact List.cons_ne_nil _ _ hcontra

/-- C9 (amended): on the empty text, `indent` is the identity exactly when
`indent_first_line` is false (or the width is zero, since the prefix is then
empty); with `indent_first_line=true` it returns the width-space prefix. -/
theorem indent_empty_characterisation :
    ∀ (columns : Nat) (first : Bool),
      indent [] columns first = if first then List.replicate columns ' ' else [] := by
  intro columns first
  cases first <;> simp [indent, indentSub, startswithNewline]

/-! ### `EnumValue` rendering and the configuration-facing short name -/

/-- `re.sub('.*_', '', s)`: the dot does not match a newline, so within
each newline-separated segment everything up to and including the last
underscore is deleted (a segment with no underscore has no match and is
kept).  The scan consumes one character at a time: a character is dropped
exactly when an underscore still follows it on the same line. -/
def subDotStarUnderscore : List Char → List Char
  | [] => []
  | c :: tl =>
    if c = '\n' then c :: subDotStarUnderscore tl
    else if '_' ∈ (c :: tl).takeWhile (fun ch => ch ≠ '\n') then subDotStarUnderscore tl
    else c :: subDotStarUnderscore tl

/-- Stated from the spec's words: the substring of the raw identifier after
the last underscore. -/
def afterLastUnderscore (s : List Char) : List Char :=
  (s.reverse.takeWhile (fun c => c ≠ '_')).reverse

/-- The Python `EnumValue` class: raw identifier and (unstripped) comment. -/
structure PEnumValue where
  name : List Char
  comment : List Char
  deriving Repr, DecidableEq

/-- `EnumValue.__str__`:
`'* ``%s`` (in configuration: ``%s``)\n%s' % (name, re.sub('.*_', '', name),
doxygen2rst(indent(comment, 2)))`. -/
def enumValueStr (v : PEnumValue) : List Char :=
  "* ``".toList ++ v.name ++ "`` (in configuration: ``".toList
    ++ subDotStarUnderscore v.name ++ "``)\n".toList
    ++ doxygen2rst (indent v.comment 2 true)

theorem afterLastUnderscore_of_not_mem {s : List Char} (h : '_' ∉ s) :
    afterLastUnderscore s = s := by
  rw [afterLastUnderscore, List.takeWhile_eq_self_iff.mpr, List.reverse_reverse]
  intro x hx
  simp only [List.mem_reverse] at hx
  simp only [decide_eq_true_eq]
  exact fun hcon => h (hcon ▸ hx)

theorem subDotStarUnderscore_eq_afterLast {s : List Char} (h : '\n' ∉ s) :
    subDotStarUnderscore s = afterLastUnderscore s := by
  induction s with
  | nil => rfl
  | cons c tl ih =>
    have hc : c ≠ '\n' := fun hcon => h (by simp [hcon])
    have htl : '\n' ∉ tl := fun hcon => h (by simp [hcon])
    have hline : (c :: tl).takeWhile (fun ch => ch ≠ '\n') = c :: tl := by
      refine List.takeWhile_eq_self_iff.mpr ?_
      intro x hx
      simp only [decide_eq_true_eq]
      exact fun hcon => h (hcon ▸ hx)
    have hrev : (c :: tl).reverse = tl.reverse ++ [c] := by simp
    by_cases hm : '_' ∈ c :: tl
    · simp only [subDotStarUnderscore, if_neg hc, hline, if_pos hm]
      rw [ih htl]
      by_cases hmtl : '_' ∈ tl
      · rw [afterLastUnderscore, afterLastUnderscore, hrev, List.takeWhile_append,
          if_neg ?hlen]
        case hlen =>
          intro hlen
          have hpre : tl.reverse.takeWhile (fun ch => ch ≠ '_') <+: tl.reverse :=
            List.takeWhile_prefix _
          have heq := hpre.eq_of_length hlen
          have hall := List.takeWhile_eq_self_iff.mp heq '_' (by simpa using hmtl)
          simp at hall
      · have hcu : c = '_' := by
          rcases List.mem_cons.mp hm with h1 | h1
          · exact h1.symm
          · exact absurd h1 hmtl
        rw [afterLastUnderscore_of_not_mem hmtl, afterLastUnderscore, hrev,
          List.takeWhile_append, if_pos ?hlen2]
        case hlen2 =>
          rw [List.takeWhile_eq_self_iff.mpr]
          intro x hx
          simp only [List.mem_reverse] at hx
          simp only [decide_eq_true_eq]
          exact fun hcon => hmtl (hcon ▸ hx)
        subst hcu
        simp
    · have hmtl : '_' ∉ tl := fun hcon => hm (List.mem_cons_of_mem c hcon)
      simp only [subDotStarUnderscore, if_neg hc, hline, if_neg hm]
      rw [ih htl, afterLastUnderscore_of_not_mem hmtl,
        afterLastUnderscore_of_not_mem hm]

/-- C8: in the rendered bullet line of an EnumerationValue, the
configuration-facing short name (computed by `re.sub('.*_', '', name)`)
is the substring of the raw identifier after the last underscore, for every
identifier without a newline (header identifiers are single lines); when the
identifier contains no underscore it is the whole identifier. -/
theorem enumValueStr_config_short_name {name cmt : List Char} (h : '\n' ∉ name) :
    enumValueStr ⟨name, cmt⟩
      = "* ``".toList ++ name ++ "`` (in configuration: ``".toList
          ++ afterLastUnderscore name ++ "``)\n".toList
          ++ doxygen2rst (indent cmt 2 true) ∧
    ('_' ∉ name → afterLastUnderscore name = name) := by
  refine ⟨?_, fun h2 => afterLastUnderscore_of_not_mem h2⟩
  rw [enumValueStr, subDotStarUnderscore_eq_afterLast h]

/-- Witness for C8 at the scenario identifier `AA_One`, whose
configuration-facing name renders as `One`. -/
theorem enumValueStr_config_short_name_witness :
    enumValueStr ⟨"AA_One".toList, "one".toList⟩
      = "* ``".toList ++ "AA_One".toList ++ "`` (in configuration: ``".toList
          ++ "One".toList ++ "``)\n".toList
          ++ doxygen2rst (indent "one".toList 2 true) :=
  ((@enumValueStr_config_short_name "AA_One".toList "one".toList (by decide)).1).trans
    (by decide)

/-! ### The declaration parser (`read_options`)

The Python parser is a `for` loop over the header lines with an explicit
state enumeration and mutable locals (`options`, `enums`, `nested_structs`,
`comment`, `enum`, `nested_struct`).  It is modelled as a step function on a
context record, folded over the lines by `runLines`; the `break` on the
closing marker is modelled by stopping the fold once the state is
`Finished`.  The two `In...Coment`/`Comment` state names keep the source's
spelling.  Sites where Python would die with an `AttributeError` (a regex
`match` returning `None`, or the `enum`/`nested_struct` locals still being
`None`) are modelled as errors; the `None` cases are unreachable from the
initial state. -/

inductive FmtState where
  | BeforeStruct
  | Finished
  | InStruct
  | InNestedStruct
  | InNestedFieldComent
  | InFieldComment
  | InEnum
  | InEnumMemberComment
  deriving Repr, DecidableEq

/-- The Python `NestedField` class (constructor strips the comment). -/
structure PNestedField where
  name : List Char
  comment : List Char
  deriving Repr, DecidableEq

/-- The Python `NestedStruct` class. -/
structure PNestedStruct where
  name : List Char
  comment : List Char
  values : List PNestedField
  deriving Repr, DecidableEq

/-- The Python `Enum` class. -/
structure PEnum where
  name : List Char
  comment : List Char
  values : List PEnumValue
  deriving Repr, DecidableEq

/-- The Python `Option` class: `enum` / `nested_struct` start as `None` and
are filled in by the resolution pass of `read_options`. -/
structure POption where
  name : List Char
  type : List Char
  comment : List Char
  enum : Option PEnum
  nested_struct : Option PNestedStruct
  deriving Repr, DecidableEq

/-- `re.match(r'^/// \\code(\{.(\w+)\})?$', line)`: full-line match of
`/// \code`, optionally followed by a brace group holding one arbitrary
non-newline character and a nonempty word (the language tag).  Returns the
language, defaulting to `c++` when the group is absent. -/
def matchCodeBlock (line : List Char) : Option (List Char) :=
  if line = "/// \\code".toList then some "c++".toList
  else if ("/// \\code".toList ++ ['\x7b']).isPrefixOf line then
    match line.drop 10 with
    | [] => none
    | c :: rest =>
      let w := rest.dropLast
      if c ≠ '\n' ∧ rest.getLast? = some '\x7d' ∧ w ≠ [] ∧ w.all isWordChar
      then some w
      else none
  else none

/-- `clean_comment_line` from the source: code-block markers become
reStructuredText directives, `\endcode` vanishes, any other line loses its
first four characters (`/// `) and gains a newline. -/
def clean_comment_line (line : List Char) : List Char :=
  match matchCodeBlock line with
  | some lang => "\n.. code-block:: ".toList ++ lang ++ "\n\n".toList
  | none =>
    if line = "/// \\endcode".toList then []
    else line.drop 4 ++ ['\n']

/-- Match of `enum\s+(\w+)\s*(:\s*\w+\s*)?\{` at the head of `s`: returns
the captured name and the text after the match. -/
def matchEnumHeaderAt (s : List Char) : Option (List Char × List Char) :=
  if "enum".toList.isPrefixOf s then
    let r0 := s.drop 4
    let ws1 := r0.takeWhile isPySpace
    if ws1.isEmpty then none
    else
      let r1 := r0.drop ws1.length
      let w := r1.takeWhile isWordChar
      if w.isEmpty then none
      else
        let r3 := (r1.drop w.length).dropWhile isPySpace
        match r3 with
        | ':' :: r4 =>
          let r5 := r4.dropWhile isPySpace
          let w2 := r5.takeWhile isWordChar
          if w2.isEmpty then none
          else
            match (r5.drop w2.length).dropWhile isPySpace with
            | '\x7b' :: r7 => some (w, r7)
            | _ => none
        | '\x7b' :: r7 => some (w, r7)
        | _ => none
  else none

/-- `re.sub(r'enum\s+(\w+)\s*(:\s*\w+\s*)?\{', '\\1', line)`: every match is
replaced by its captured name; unmatched text is kept. -/
def subEnumNameGo : Nat → List Char → List Char
  | 0, s => s
  | _ + 1, [] => []
  | fuel + 1, c :: tl =>
    match matchEnumHeaderAt (c :: tl) with
    | some (w, rest) => w ++ subEnumNameGo fuel rest
    | none => c :: subEnumNameGo fuel tl

def subEnumName (line : List Char) : List Char :=
  subEnumNameGo line.length line

/-- Match of `struct\s+(\w+)\s*\{` at the head of `s`. -/
def matchStructHeaderAt (s : List Char) : Option (List Char × List Char) :=
  if "struct".toList.isPrefixOf s then
    let r0 := s.drop 6
    let ws1 := r0.takeWhile isPySpace
    if ws1.isEmpty then none
    else
      let r1 := r0.drop ws1.length
      let w := r1.takeWhile isWordChar
      if w.isEmpty then none
      else
        match (r1.drop w.length).dropWhile isPySpace with
        | '\x7b' :: r7 => some (w, r7)
        | _ => none
  else none

/-- `re.sub(r'struct\s+(\w+)\s*\{', '\\1', line)`. -/
def subStructNameGo : Nat → List Char → List Char
  | 0, s => s
  | _ + 1, [] => []
  | fuel + 1, c :: tl =>
    match matchStructHeaderAt (c :: tl) with
    | some (w, rest) => w ++ subStructNameGo fuel rest
    | none => c :: subStructNameGo fuel tl

def subStructName (line : List Char) : List Char :=
  subStructNameGo line.length line

/-- The character class `[<>:\w(,\s)]` of the field-declaration pattern. -/
def isFieldTypeChar (ch : Char) : Bool :=
  ch = '<' || ch = '>' || ch = ':' || ch = '(' || ch = ',' || ch = ')'
    || isWordChar ch || isPySpace ch

/-- `re.match(r'([<>:\w(,\s)]+)\s+(\w+);', line).groups()`: anchored at the
start, the terminator is the first `;`, the field name is the maximal word
run right before it, one whitespace character before the name feeds `\s+`,
and the greedy class run takes everything before that (it may keep
trailing whitespace).  Returns `(field_type, field_name)`, or `none` when
the pattern does not match (Python then dies on `None.groups()`). -/
def parseField (line : List Char) : Option (List Char × List Char) :=
  let pre := line.takeWhile fun ch => ch ≠ ';'
  if pre.length = line.length then none
  else
    let w := (pre.reverse.takeWhile isWordChar).reverse
    if w.isEmpty then none
    else
      let rest0 := pre.take (pre.length - w.length)
      match rest0.getLast? with
      | none => none
      | some c =>
        if isPySpace c ∧ rest0.dropLast ≠ [] ∧ rest0.dropLast.all isFieldTypeChar
        then some (rest0.dropLast, w)
        else none

/-- `s.endswith(ch)` for a single character. -/
def endswithChar (s : List Char) (ch : Char) : Bool :=
  s.getLast? == some ch

/-- The mutable locals of one `read_options` run: current state, collected
options, the two registries, the accumulated comment and the
enumeration/nested-struct being built. -/
structure ParseCtx where
  state : FmtState
  options : List POption
  enums : List (List Char × PEnum)
  nested_structs : List (List Char × PNestedStruct)
  comment : List Char
  cur_enum : Option PEnum
  cur_nested : Option PNestedStruct
  deriving Repr, DecidableEq

def initCtx : ParseCtx :=
  ⟨.BeforeStruct, [], [], [], [], none, none⟩

/-- Registration `d[name] = value` with `name in d` lookup: the most recent
registration wins, as for a Python dict. -/
def lookupReg {α : Type} : List (List Char × α) → List Char → Option α
  | [], _ => none
  | (n, v) :: tl, k => if n = k then some v else lookupReg tl k

/-- One iteration of the `for line in header` loop: strip the line, then
dispatch on the current state exactly as the if/elif chains do. -/
def step (ctx : ParseCtx) (rawLine : List Char) : Except (List Char) ParseCtx :=
  let line := pyStrip rawLine
  match ctx.state with
  | .BeforeStruct =>
    if line = "struct FormatStyle \x7b".toList ∨ line = "struct IncludeStyle \x7b".toList
    then .ok { ctx with state := .InStruct }
    else .ok ctx
  | .InStruct =>
    if "///".toList.isPrefixOf line then
      .ok { ctx with state := .InFieldComment, comment := clean_comment_line line }
    else if line = "\x7d;".toList then .ok { ctx with state := .Finished }
    else .ok ctx
  | .InFieldComment =>
    if "///".toList.isPrefixOf line then
      .ok { ctx with comment := ctx.comment ++ clean_comment_line line }
    else if "enum".toList.isPrefixOf line then
      .ok { ctx with state := .InEnum
                     cur_enum := some ⟨subEnumName line, pyStrip ctx.comment, []⟩ }
    else if "struct".toList.isPrefixOf line then
      .ok { ctx with state := .InNestedStruct
                     cur_nested := some ⟨subStructName line, pyStrip ctx.comment, []⟩ }
    else if "//".toList.isPrefixOf line && endswithChar line ';' then
      .ok { ctx with state := .InStruct }
    else if endswithChar line ';' then
      match parseField line with
      | some (ftype, fname) =>
        .ok { ctx with state := .InStruct
                       options := ctx.options ++ [⟨fname, ftype, pyStrip ctx.comment, none, none⟩] }
      | none => .error "AttributeError: re.match returned None".toList
    else .error "Invalid format, expected comment, field or enum".toList
  | .InNestedStruct =>
    if "///".toList.isPrefixOf line then
      .ok { ctx with state := .InNestedFieldComent, comment := clean_comment_line line }
    else if line = "\x7d;".toList then
      match ctx.cur_nested with
      | some ns =>
        .ok { ctx with state := .InStruct
                       nested_structs := (ns.name, ns) :: ctx.nested_structs }
      | none => .error "AttributeError: nested_struct is None".toList
    else .ok ctx
  | .InNestedFieldComent =>
    if "///".toList.isPrefixOf line then
      .ok { ctx with comment := ctx.comment ++ clean_comment_line line }
    else
      match ctx.cur_nested with
      | some ns =>
        .ok { ctx with state := .InNestedStruct
                       cur_nested := some { ns with values := ns.values
                         ++ [⟨line.filter fun ch => ch ≠ ';', pyStrip ctx.comment⟩] } }
      | none => .error "AttributeError: nested_struct is None".toList
  | .InEnum =>
    if "///".toList.isPrefixOf line then
      .ok { ctx with state := .InEnumMemberComment, comment := clean_comment_line line }
    else if line = "\x7d;".toList then
      match ctx.cur_enum with
      | some e => .ok { ctx with state := .InStruct, enums := (e.name, e) :: ctx.enums }
      | none => .error "AttributeError: enum is None".toList
    else if line = [] then .ok ctx
    else .error "Invalid format, expected enum field comment or \x7d;".toList
  | .InEnumMemberComment =>
    if "///".toList.isPrefixOf line then
      .ok { ctx with comment := ctx.comment ++ clean_comment_line line }
    else
      match ctx.cur_enum with
      | some e =>
        .ok { ctx with state := .InEnum
                       cur_enum := some { e with values := e.values
                         ++ [⟨line.filter fun ch => ch ≠ ',', ctx.comment⟩] } }
      | none => .error "AttributeError: enum is None".toList
  | .Finished => .ok ctx

/-- The line loop; the source's `break` on reaching `Finished` is modelled
by ignoring the remaining lines. -/
def runLines : ParseCtx → List (List Char) → Except (List Char) ParseCtx
  | ctx, [] => .ok ctx
  | ctx, l :: ls =>
    if ctx.state = .Finished then .ok ctx
    else
      match step ctx l with
      | .ok ctx' => runLines ctx' ls
      | .error e => .error e

/-- The type-resolution of one option in the post-pass: a known built-in
type is left alone; otherwise the enumeration registry is consulted first,
then the nested-struct registry; failing both raises `Unknown type`. -/
def resolveOption (isKnown : List Char → Bool) (enums : List (List Char × PEnum))
    (nesteds : List (List Char × PNestedStruct)) (o : POption) :
    Except (List Char) POption :=
  if isKnown o.type then .ok o
  else
    match lookupReg enums o.type with
    | some e => .ok { o with enum := some e }
    | none =>
      match lookupReg nesteds o.type with
      | some ns => .ok { o with nested_struct := some ns }
      | none => .error ("Unknown type: ".toList ++ o.type)

/-- The `for option in options` resolution loop: options in order, stopping
at the first unresolved type. -/
def postPass (isKnown : List Char → Bool) (enums : List (List Char × PEnum))
    (nesteds : List (List Char × PNestedStruct)) :
    List POption → Except (List Char) (List POption)
  | [] => .ok []
  | o :: rest =>
    match resolveOption isKnown enums nesteds o with
    | .ok o' => (postPass isKnown enums nesteds rest).map (o' :: ·)
    | .error e => .error e

/-- `read_options(header, isknownoptiontype_func)` from the source: run the
state machine over the lines, require the `Finished` state, then resolve
every option's type. -/
def read_options (header : List (List Char)) (isknownoptiontype_func : List Char → Bool) :
    Except (List Char) (List POption) :=
  match runLines initCtx header with
  | .error e => .error e
  | .ok ctx =>
    if ctx.state = .Finished then
      postPass isknownoptiontype_func ctx.enums ctx.nested_structs ctx.options
    else .error "Not finished by the end of file".toList

/-- A step reaches `Finished` only from `Finished` itself or by consuming
the closing marker `};` in the `InStruct` state. -/
theorem step_ok_state_finished {ctx ctx' : ParseCtx} {l : List Char}
    (h : step ctx l = .ok ctx') (hfin : ctx'.state = .Finished) :
    ctx.state = .Finished ∨ (ctx.state = .InStruct ∧ pyStrip l = "\x7d;".toList) := by
  rcases hstate : ctx.state <;> simp only [step, hstate] at h <;>
    repeat' split at h
  all_goals
    first
    | exact Except.noConfusion h
    | (injection h with h2; subst h2; simp_all)

theorem runLines_not_finished {header : List (List Char)}
    (hl : ∀ l ∈ header, pyStrip l ≠ "\x7d;".toList) :
    ∀ ctx ctx', ctx.state ≠ .Finished → runLines ctx header = .ok ctx' →
      ctx'.state ≠ .Finished := by
  induction header with
  | nil =>
    intro ctx ctx' hs h
    simp only [runLines, Except.ok.injEq] at h
    subst h
    exact hs
  | cons l ls ih =>
    intro ctx ctx' hs h
    simp only [runLines, if_neg hs] at h
    rcases hstep : step ctx l with e | c2 <;> rw [hstep] at h
    · exact Except.noConfusion h
    · have hc2 : c2.state ≠ .Finished := by
        intro hfin
        rcases step_ok_state_finished hstep hfin with h1 | ⟨h1, h2⟩
        · exact hs h1
        · exact hl l (List.mem_cons_self l ls) h2
      exact ih (fun x hx => hl x (List.mem_cons_of_mem l hx)) c2 ctx' hc2 h

/-- C3, counterexample: the claimed dichotomy (`read_options` either reaches
`Finished` and returns the option list, or raises the incomplete-input
error after the last line) misses the mid-scan fatal errors: this header
raises the format error from the field-comment state, which is neither a
successful return nor the incomplete-input error. -/
theorem read_options_invalid_format_counterexample :
    read_options ["struct FormatStyle \x7b".toList, "/// c".toList, "@@@".toList]
        (fun _ => true)
      = .error "Invalid format, expected comment, field or enum".toList ∧
    "Invalid format, expected comment, field or enum".toList
      ≠ "Not finished by the end of file".toList :=
  ⟨rfl, by decide⟩

/-- C3 (amended): `read_options` returns an option list only when the line
scan ended in the `Finished` state (the closing marker was consumed in the
`InStruct` state); when the scan completes without a mid-scan error but
without reaching `Finished`, it raises exactly the incomplete-input error;
consequently a header none of whose stripped lines is the closing marker
`};` never returns an option list. -/
theorem read_options_finished_dichotomy :
    (∀ (header : List (List Char)) (isKnown : List Char → Bool) (opts : List POption),
      read_options header isKnown = .ok opts →
        ∃ ctx, runLines initCtx header = .ok ctx ∧ ctx.state = .Finished) ∧
    (∀ (header : List (List Char)) (isKnown : List Char → Bool) (ctx : ParseCtx),
      runLines initCtx header = .ok ctx → ctx.state ≠ .Finished →
        read_options header isKnown = .error "Not finished by the end of file".toList) ∧
    (∀ (header : List (List Char)) (isKnown : List Char → Bool),
      (∀ l ∈ header, pyStrip l ≠ "\x7d;".toList) →
        ∀ opts, read_options header isKnown ≠ .ok opts) := by
  refine ⟨?_, ?_, ?_⟩
  · intro header isKnown opts h
    rcases hrun : runLines initCtx header with e | ctx
    · simp only [read_options, hrun] at h
      exact Except.noConfusion h
    · simp only [read_options, hrun] at h
      by_cases hfin : ctx.state = .Finished
      · exact ⟨ctx, rfl, hfin⟩
      · rw [if_neg hfin] at h
        exact Except.noConfusion h
  · intro header isKnown ctx hrun hnfin
    simp only [read_options, hrun, hnfin, if_false]
  · intro header isKnown hl opts h
    rcases hrun : runLines initCtx header with e | ctx
    · simp only [read_options, hrun] at h
      exact Except.noConfusion h
    · simp only [read_options, hrun] at h
      have hnfin : ctx.state ≠ .Finished :=
        runLines_not_finished hl initCtx ctx (by decide) hrun
      rw [if_neg hnfin] at h
      exact Except.noConfusion h

/-- Witness for C3's amended theorem: a header whose declaration block is
never closed cannot return an option list. -/
theorem read_options_finished_dichotomy_witness :
    read_options ["struct FormatStyle \x7b".toList, "/// c".toList, "int X;".toList]
        (fun _ => true) ≠ .ok [] :=
  read_options_finished_dichotomy.2.2
    ["struct FormatStyle \x7b".toList, "/// c".toList, "int X;".toList]
    (fun _ => true) (by decide) []

/-- `resolveOption` raises exactly on the unresolvable options, and the
message names the offending type. -/
theorem resolveOption_error_iff {isKnown : List Char → Bool}
    {enums : List (List Char × PEnum)} {nesteds : List (List Char × PNestedStruct)}
    {o : POption} {e : List Char} :
    resolveOption isKnown enums nesteds o = .error e ↔
      isKnown o.type = false ∧ lookupReg enums o.type = none ∧
      lookupReg nesteds o.type = none ∧ e = "Unknown type: ".toList ++ o.type := by
  rw [resolveOption]
  constructor
  · intro h
    split at h
    · exact Except.noConfusion h
    · next hk =>
      rcases h1 : lookupReg enums o.type with _ | e1 <;> rw [h1] at h
      · rcases h2 : lookupReg nesteds o.type with _ | n1 <;> rw [h2] at h
        · refine ⟨by simpa using hk, rfl, rfl, ?_⟩
          simpa using h.symm
        · exact Except.noConfusion h
      · exact Except.noConfusion h
  · rintro ⟨hk, h1, h2, rfl⟩
    rw [if_neg (by simp [hk]), h1, h2]

/-- C4: in the post-pass of `read_options`, an option whose type spelling
the caller-supplied predicate rejects is resolved against the enumeration
registry first, then the nested-struct registry; and whenever some option's
type is in neither registry, the pass raises an `Unknown type` error whose
message names an offending option's type. -/
theorem postPass_unknown_type_resolution :
    (∀ (isKnown : List Char → Bool) (enums : List (List Char × PEnum))
        (nesteds : List (List Char × PNestedStruct)) (o : POption) (e : PEnum),
      isKnown o.type = false → lookupReg enums o.type = some e →
        resolveOption isKnown enums nesteds o = .ok { o with enum := some e }) ∧
    (∀ (isKnown : List Char → Bool) (enums : List (List Char × PEnum))
        (nesteds : List (List Char × PNestedStruct)) (o : POption)
        (ns : PNestedStruct),
      isKnown o.type = false → lookupReg enums o.type = none →
      lookupReg nesteds o.type = some ns →
        resolveOption isKnown enums nesteds o = .ok { o with nested_struct := some ns }) ∧
    (∀ (isKnown : List Char → Bool) (enums : List (List Char × PEnum))
        (nesteds : List (List Char × PNestedStruct)) (opts : List POption),
      (∃ o ∈ opts, isKnown o.type = false ∧ lookupReg enums o.type = none ∧
        lookupReg nesteds o.type = none) →
      ∃ o, o ∈ opts ∧ isKnown o.type = false ∧ lookupReg enums o.type = none ∧
        lookupReg nesteds o.type = none ∧
        postPass isKnown enums nesteds opts
          = .error ("Unknown type: ".toList ++ o.type)) := by
  refine ⟨?_, ?_, ?_⟩
  · intro isKnown enums nesteds o e hk h1
    rw [resolveOption, if_neg (by simp [hk]), h1]
  · intro isKnown enums nesteds o ns hk h1 h2
    rw [resolveOption, if_neg (by simp [hk]), h1, h2]
  · intro isKnown enums nesteds opts
    induction opts with
    | nil => rintro ⟨o, hmem, -⟩; simp at hmem
    | cons o rest ih =>
      rintro ⟨o0, hmem, hk0, h10, h20⟩
      rcases hres : resolveOption isKnown enums nesteds o with e' | o'
      · obtain ⟨hk, h1, h2, rfl⟩ := resolveOption_error_iff.mp hres
        refine ⟨o, List.mem_cons_self o rest, hk, h1, h2, ?_⟩
        simp only [postPass, hres]
      · have ho0rest : o0 ∈ rest := by
          rcases List.mem_cons.mp hmem with rfl | hmemr
          · exfalso
            rw [resolveOption, if_neg (by simp [hk0]), h10, h20] at hres
            exact Except.noConfusion hres
          · exact hmemr
        obtain ⟨o1, hmem1, hk1, h11, h21, herr1⟩ := ih ⟨o0, ho0rest, hk0, h10, h20⟩
        refine ⟨o1, List.mem_cons_of_mem o hmem1, hk1, h11, h21, ?_⟩
        simp only [postPass, hres, herr1, Except.map]

/-- Witness for C4 at a single option of unregistered type `Z`: the pass
raises `Unknown type: Z`. -/
theorem postPass_unknown_type_resolution_witness :
    postPass (fun _ => false) [] [] [⟨"F".toList, "Z".toList, [], none, none⟩]
      = .error ("Unknown type: ".toList ++ "Z".toList) := by
  obtain ⟨o, hmem, -, -, -, herr⟩ :=
    postPass_unknown_type_resolution.2.2 (fun _ => false) [] []
      [⟨"F".toList, "Z".toList, [], none, none⟩]
      ⟨⟨"F".toList, "Z".toList, [], none, none⟩, by simp, rfl, rfl, rfl⟩
  obtain rfl := List.mem_singleton.mp hmem
  exact herr

/-- C5, counterexample: inside a nested-struct block, the stray line `@@@`
is neither a documentation line nor the closing marker, yet the parser does
not raise — the nested-struct state has no error fall-through, so the line
is silently ignored and the whole parse still succeeds. -/
theorem nested_struct_ignores_stray_counterexample :
    "///".toList.isPrefixOf "@@@".toList = false ∧
    ("@@@".toList : List Char) ≠ "\x7d;".toList ∧
    read_options ["struct FormatStyle \x7b".toList, "/// d".toList,
        "struct N \x7b".toList, "@@@".toList, "\x7d;".toList, "\x7d;".toList]
        (fun _ => false)
      = .ok [] :=
  ⟨by decide, by decide, rfl⟩

/-- C5 (amended): in the enum-block state every line that is neither a
documentation line, nor the closing marker, nor blank raises the fatal
format error; but in the nested-struct-block state such a line is silently
ignored (the context is returned unchanged) rather than raising. -/
theorem enum_raises_nested_struct_ignores :
    (∀ (ctx : ParseCtx) (l : List Char),
      ctx.state = .InEnum →
      "///".toList.isPrefixOf (pyStrip l) = false →
      pyStrip l ≠ "\x7d;".toList →
      pyStrip l ≠ [] →
        step ctx l
          = .error "Invalid format, expected enum field comment or \x7d;".toList) ∧
    (∀ (ctx : ParseCtx) (l : List Char),
      ctx.state = .InNestedStruct →
      "///".toList.isPrefixOf (pyStrip l) = false →
      pyStrip l ≠ "\x7d;".toList →
        step ctx l = .ok ctx) := by
  constructor
  · intro ctx l hstate h1 h2 h3
    simp only [step, hstate, h1, h2, h3, Bool.false_eq_true, if_false]
  · intro ctx l hstate h1 h2
    simp only [step, hstate, h1, h2, Bool.false_eq_true, if_false]

/-- Witness for C5's amended theorem at the stray line `@@@` in each of the
two block states. -/
theorem enum_raises_nested_struct_ignores_witness :
    step { initCtx with state := .InEnum } "@@@".toList
        = .error "Invalid format, expected enum field comment or \x7d;".toList ∧
    step { initCtx with state := .InNestedStruct } "@@@".toList
      = .ok { initCtx with state := .InNestedStruct } :=
  ⟨enum_raises_nested_struct_ignores.1 { initCtx with state := .InEnum }
      "@@@".toList rfl (by decide) (by decide) (by decide),
    enum_raises_nested_struct_ignores.2 { initCtx with state := .InNestedStruct }
      "@@@".toList rfl (by decide) (by decide)⟩

/-! ### Comment discarding on deprecated fields (C7) -/

/-- Forget the accumulated comment of a context. -/
def eraseComment (ctx : ParseCtx) : ParseCtx :=
  { ctx with comment := [] }

theorem eraseComment_ext {a b : ParseCtx} (h : eraseComment a = eraseComment b) :
    a.state = b.state ∧ a.options = b.options ∧ a.enums = b.enums ∧
      a.nested_structs = b.nested_structs ∧ a.cur_enum = b.cur_enum ∧
      a.cur_nested = b.cur_nested := by
  cases a
  cases b
  simpa [eraseComment, ParseCtx.mk.injEq] using h

theorem eraseComment_full_eq {a b : ParseCtx} (h : eraseComment a = eraseComment b)
    (st : FmtState) (c : List Char) :
    { a with state := st, comment := c } = { b with state := st, comment := c } := by
  obtain ⟨h1, h2, h3, h4, h5, h6⟩ := eraseComment_ext h
  cases a
  cases b
  simp_all [ParseCtx.mk.injEq]

theorem eraseComment_update_state {a b : ParseCtx}
    (h : eraseComment a = eraseComment b) (st : FmtState) :
    eraseComment { a with state := st } = eraseComment { b with state := st } := by
  obtain ⟨h1, h2, h3, h4, h5, h6⟩ := eraseComment_ext h
  cases a
  cases b
  simp_all [eraseComment, ParseCtx.mk.injEq]

theorem runLines_cons_ok {ctx ctx' : ParseCtx} {l : List Char} {ls : List (List Char)}
    (hnf : ctx.state ≠ .Finished) (h : step ctx l = .ok ctx') :
    runLines ctx (l :: ls) = runLines ctx' ls := by
  rw [runLines, if_neg hnf, h]

/-- From any of the three comment-insensitive states (before the
declaration, between fields, finished), two runs whose contexts differ only
in the accumulated comment produce the same outcome up to that comment:
the pending comment left over by a deprecated field can never reach a later
entity. -/
theorem runLines_comment_irrelevant {lines : List (List Char)} :
    ∀ {ctx1 ctx2 : ParseCtx},
      eraseComment ctx1 = eraseComment ctx2 →
      (ctx1.state = .BeforeStruct ∨ ctx1.state = .InStruct ∨ ctx1.state = .Finished) →
      (runLines ctx1 lines).map eraseComment = (runLines ctx2 lines).map eraseComment := by
  induction lines with
  | nil =>
    intro ctx1 ctx2 he hs
    simp [runLines, Except.map, he]
  | cons l ls ih =>
    intro ctx1 ctx2 he hs
    have hstate : ctx1.state = ctx2.state := (eraseComment_ext he).1
    by_cases hfin : ctx1.state = .Finished
    · rw [runLines, runLines, if_pos hfin, if_pos (hstate ▸ hfin)]
      simp [Except.map, he]
    · have hfin2 : ctx2.state ≠ .Finished := fun hcon => hfin (by rw [hstate, hcon])
      rcases hs with h1 | h1 | h1
      · have h2 : ctx2.state = .BeforeStruct := hstate ▸ h1
        by_cases hop : pyStrip l = "struct FormatStyle \x7b".toList
            ∨ pyStrip l = "struct IncludeStyle \x7b".toList
        · have hs1 : step ctx1 l = .ok { ctx1 with state := .InStruct } := by
            simp only [step, h1]
            rw [if_pos hop]
          have hs2 : step ctx2 l = .ok { ctx2 with state := .InStruct } := by
            simp only [step, h2]
            rw [if_pos hop]
          rw [runLines_cons_ok hfin hs1, runLines_cons_ok hfin2 hs2]
          exact ih (eraseComment_update_state he .InStruct) (Or.inr (Or.inl rfl))
        · have hs1 : step ctx1 l = .ok ctx1 := by
            simp only [step, h1]
            rw [if_neg hop]
          have hs2 : step ctx2 l = .ok ctx2 := by
            simp only [step, h2]
            rw [if_neg hop]
          rw [runLines_cons_ok hfin hs1, runLines_cons_ok hfin2 hs2]
          exact ih he (Or.inl h1)
      · have h2 : ctx2.state = .InStruct := hstate ▸ h1
        by_cases hc1 : "///".toList.isPrefixOf (pyStrip l) = true
        · have hs1 : step ctx1 l
              = .ok { ctx1 with state := .InFieldComment, comment := clean_comment_line (pyStrip l) } := by
            simp only [step, h1]
            rw [if_pos hc1]
          have hs2 : step ctx2 l
              = .ok { ctx2 with state := .InFieldComment, comment := clean_comment_line (pyStrip l) } := by
            simp only [step, h2]
            rw [if_pos hc1]
          rw [runLines_cons_ok hfin hs1, runLines_cons_ok hfin2 hs2,
            eraseComment_full_eq he .InFieldComment (clean_comment_line (pyStrip l))]
        · by_cases hc2 : pyStrip l = "\x7d;".toList
          · have hs1 : step ctx1 l = .ok { ctx1 with state := .Finished } := by
              simp only [step, h1]
              rw [if_neg hc1, if_pos hc2]
            have hs2 : step ctx2 l = .ok { ctx2 with state := .Finished } := by
              simp only [step, h2]
              rw [if_neg hc1, if_pos hc2]
            rw [runLines_cons_ok hfin hs1, runLines_cons_ok hfin2 hs2]
            exact ih (eraseComment_update_state he .Finished) (Or.inr (Or.inr rfl))
          · have hs1 : step ctx1 l = .ok ctx1 := by
              simp only [step, h1]
              rw [if_neg hc1, if_neg hc2]
            have hs2 : step ctx2 l = .ok ctx2 := by
              simp only [step, h2]
              rw [if_neg hc1, if_neg hc2]
            rw [runLines_cons_ok hfin hs1, runLines_cons_ok hfin2 hs2]
            exact ih he (Or.inr (Or.inl h1))
      · exact absurd h1 hfin

/-- C7: in the field-comment state, a line that is itself a line comment
ending in the terminator (a deprecated field) returns the parser to the
in-declaration state with the option list unchanged (the context is changed
in no other way: in the source the `comment` variable is left holding the
accumulated text), and the left-over comment is unobservable: from the
in-declaration state, runs differing only in the pending comment yield the
same result, so the accumulated comment never becomes a later entity's
comment. -/
theorem deprecated_field_no_option_comment_discarded :
    (∀ (ctx : ParseCtx) (l : List Char),
      ctx.state = .InFieldComment →
      "//".toList.isPrefixOf (pyStrip l) = true →
      "///".toList.isPrefixOf (pyStrip l) = false →
      endswithChar (pyStrip l) ';' = true →
        step ctx l = .ok { ctx with state := .InStruct }) ∧
    (∀ (ctx : ParseCtx) (lines : List (List Char)) (c : List Char),
      ctx.state = .InStruct →
        (runLines { ctx with comment := c } lines).map eraseComment
          = (runLines ctx lines).map eraseComment) := by
  constructor
  · intro ctx l hstate h2 h3 h4
    obtain ⟨t, ht⟩ := List.isPrefixOf_iff_prefix.mp h2
    have henum : "enum".toList.isPrefixOf (pyStrip l) = false := by
      rw [← ht]
      rfl
    have hstruct : "struct".toList.isPrefixOf (pyStrip l) = false := by
      rw [← ht]
      rfl
    simp only [step, hstate, h2, h3, h4, henum, hstruct, Bool.false_eq_true,
      if_false, Bool.and_self, if_true]
  · intro ctx lines c hstate
    exact runLines_comment_irrelevant (by simp [eraseComment]) (Or.inr (Or.inl hstate))

/-- Witness for C7 at the spec's scenario: a doc comment followed by the
deprecated line `//  deprecated;` yields no option, and the leftover
comment is invisible to the continuation of the run. -/
theorem deprecated_field_no_option_comment_discarded_witness :
    step { initCtx with state := .InFieldComment, comment := "gone\n".toList }
        "//  deprecated;".toList
      = .ok { initCtx with state := .InStruct, comment := "gone\n".toList } ∧
    (runLines { initCtx with state := .InStruct, comment := "gone\n".toList }
        ["\x7d;".toList]).map eraseComment
      = (runLines { initCtx with state := .InStruct } ["\x7d;".toList]).map eraseComment :=
  ⟨deprecated_field_no_option_comment_discarded.1
      { initCtx with state := .InFieldComment, comment := "gone\n".toList }
      "//  deprecated;".toList rfl (by decide) (by decide) (by decide),
    deprecated_field_no_option_comment_discarded.2
      { initCtx with state := .InStruct } ["\x7d;".toList] "gone\n".toList rfl⟩

end DumpFormat
